import Mathlib

/-!
The class `rw::RegWrapper` (src/reg_wrapper.h): bit-field arithmetic of a register accessor.

The C++ class template `RegWrapper<Addr, RegSize>` wraps one memory-mapped
`volatile uint32_t` cell.  The embedding below keeps the content of that cell
as a natural number below `2 ^ 32` and passes it explicitly through every
member function.

* `uint32_t` and `unsigned long long` values are natural numbers; every
  operation that can leave the type's range is reduced modulo `2 ^ 32`
  or `2 ^ 64` explicitly.
* `int` values (the literal `1`, the template arguments `Bit`, `FirstBit`,
  `LastBit`) are integers; `1 << Bit` on `int` keeps the two's-complement
  value, which is what the `static_assert`s at the end of the header rely on
  when they evaluate `1 << 31` in a constant expression.
* A `static_assert` that fails means the instantiation does not exist; the
  embedded function then returns `none`.
-/

namespace rw

/-! ## Machine arithmetic -/

/-- The largest `uint32_t`, `std::numeric_limits<uint32_t>::max()`. -/
def u32max : Nat := 2 ^ 32 - 1

/-- The smallest `uint32_t`, `std::numeric_limits<uint32_t>::min()`. -/
def u32min : Nat := 0

/-- Conversion of an `unsigned long long` to `uint32_t`. -/
def u64ToU32 (a : Nat) : Nat := a % 2 ^ 32

/-- Conversion of an `int` to `uint32_t` (usual arithmetic conversions). -/
def intToU32 (a : Int) : Nat := (a % 2 ^ 32).toNat

/-- The value an `int` holds for the mathematical integer `a` (two's complement on 32 bits). -/
def wrapInt (a : Int) : Int := (a + 2 ^ 31) % 2 ^ 32 - 2 ^ 31

/-- Left shift `a << n` on `int`. -/
def shlInt (a : Int) (n : Nat) : Int := wrapInt (a * 2 ^ n)

/-- Bitwise complement `~a` on `int`. -/
def notInt (a : Int) : Int := -a - 1

/-- Bitwise complement `~a` on `uint32_t`. -/
def not32 (a : Nat) : Nat := 2 ^ 32 - 1 - a % 2 ^ 32

/-- Left shift `a << n` on `unsigned long long`. -/
def shl64 (a n : Nat) : Nat := (a <<< n) % 2 ^ 64

/-- Subtraction `a - b` on `unsigned long long`. -/
def sub64 (a b : Nat) : Nat := (a + (2 ^ 64 - b % 2 ^ 64)) % 2 ^ 64

/-! ## Compile-time checks -/

/-- The class-level `static_assert(RegSize <= 32, ...)`. -/
def checkRegSize (RegSize : Nat) : Bool := decide (RegSize ≤ 32)

/-- The `static_assert(Bit >= 0 && Bit < RegSize, ...)` of `checkBitNumber<Bit>`. -/
def checkBitNumber (RegSize : Nat) (Bit : Int) : Bool :=
  decide (Bit ≥ 0) && decide (Bit < (RegSize : Int))

/-- The three assertions of `checkBitRange<FirstBit, LastBit>`. -/
def checkBitRange (RegSize : Nat) (FirstBit LastBit : Int) : Bool :=
  checkBitNumber RegSize FirstBit && checkBitNumber RegSize LastBit &&
    decide (FirstBit ≤ LastBit)

/-! ## The converters -/

/-- The mask `(1ull << (LastBit - FirstBit + 1)) - 1`, an `unsigned long long`. -/
def fieldMask64 (FirstBit LastBit : Int) : Nat :=
  sub64 (shl64 1 (LastBit - FirstBit + 1).toNat) 1

/-- The `unsigned long long` value of
`(val & ((1ull << (LastBit - FirstBit + 1)) - 1)) << FirstBit`, before it is
converted to the return type. -/
def convValToBitRangeVal64 (FirstBit LastBit : Int) (val : Nat) : Nat :=
  shl64 (val &&& fieldMask64 FirstBit LastBit) FirstBit.toNat

/-- The static member `convValToBitRangeVal<FirstBit, LastBit>(val)`. -/
def convValToBitRangeVal (RegSize : Nat) (FirstBit LastBit : Int) (val : Nat) : Option Nat :=
  if checkRegSize RegSize && checkBitRange RegSize FirstBit LastBit then
    some (u64ToU32 (convValToBitRangeVal64 FirstBit LastBit val))
  else none

/-- The static member `convBitRangeValToVal<FirstBit, LastBit>(bit_range)`. -/
def convBitRangeValToVal (RegSize : Nat) (FirstBit LastBit : Int) (bit_range : Nat) :
    Option Nat :=
  if checkRegSize RegSize && checkBitRange RegSize FirstBit LastBit then
    some (u64ToU32 ((bit_range >>> FirstBit.toNat) &&& fieldMask64 FirstBit LastBit))
  else none

/-! ## Member functions on the register

Each function takes the content `reg` of `*ptr` before the call.  A function
that returns a value gives back that value together with the content of
`*ptr` after the call; a `void` function gives back the content after the call.
-/

/-- The member `getBit<Bit>()`: `return *ptr & (1 << Bit);` converted to `bool`. -/
def getBit (RegSize : Nat) (Bit : Int) (reg : Nat) : Option (Bool × Nat) :=
  if checkRegSize RegSize && checkBitNumber RegSize Bit then
    some (decide ((reg &&& intToU32 (shlInt 1 Bit.toNat)) ≠ 0), reg)
  else none

/-- The member `setBit<Bit>()`: `*ptr |= (1 << Bit);`. -/
def setBit (RegSize : Nat) (Bit : Int) (reg : Nat) : Option Nat :=
  if checkRegSize RegSize && checkBitNumber RegSize Bit then
    some (reg ||| intToU32 (shlInt 1 Bit.toNat))
  else none

/-- The member `resetBit<Bit>()`: `*ptr &= ~(1 << Bit);`. -/
def resetBit (RegSize : Nat) (Bit : Int) (reg : Nat) : Option Nat :=
  if checkRegSize RegSize && checkBitNumber RegSize Bit then
    some (reg &&& intToU32 (notInt (shlInt 1 Bit.toNat)))
  else none

/-- The member `getBitRangeVal<FirstBit, LastBit>()`. -/
def getBitRangeVal (RegSize : Nat) (FirstBit LastBit : Int) (reg : Nat) :
    Option (Nat × Nat) :=
  if checkRegSize RegSize && checkBitRange RegSize FirstBit LastBit then
    (convBitRangeValToVal RegSize FirstBit LastBit reg).map (fun v => (v, reg))
  else none

/-- The member `setBitRangeVal<FirstBit, LastBit>(val)`: one read of `*ptr`,
two updates of the local copy, one write back. -/
def setBitRangeVal (RegSize : Nat) (FirstBit LastBit : Int) (val reg : Nat) : Option Nat :=
  if checkRegSize RegSize && checkBitRange RegSize FirstBit LastBit then
    (convValToBitRangeVal RegSize FirstBit LastBit u32max).bind fun m =>
      (convValToBitRangeVal RegSize FirstBit LastBit val).bind fun f =>
        some ((reg &&& not32 m) ||| f)
  else none

/-- The member `setBitRange<FirstBit, LastBit>()`. -/
def setBitRange (RegSize : Nat) (FirstBit LastBit : Int) (reg : Nat) : Option Nat :=
  if checkRegSize RegSize && checkBitRange RegSize FirstBit LastBit then
    (convValToBitRangeVal RegSize FirstBit LastBit u32max).map fun m => reg ||| m
  else none

/-- The member `resetBitRange<FirstBit, LastBit>()`. -/
def resetBitRange (RegSize : Nat) (FirstBit LastBit : Int) (reg : Nat) : Option Nat :=
  if checkRegSize RegSize && checkBitRange RegSize FirstBit LastBit then
    (convValToBitRangeVal RegSize FirstBit LastBit u32max).map fun m => reg &&& not32 m
  else none

/-- The whole-register `operator=(uint32_t val)`: `*ptr = val;`. -/
def assign (RegSize : Nat) (val : Nat) (_reg : Nat) : Option Nat :=
  if checkRegSize RegSize then some val else none

/-- The member `get()` and the conversion operators: the content of `*ptr`. -/
def get (RegSize : Nat) (reg : Nat) : Option (Nat × Nat) :=
  if checkRegSize RegSize then some (reg, reg) else none

/-- An lvalue of type `Reg&` (`volatile uint32_t&`): the value that a load
through it gives, and the content that its cell holds after a `uint32_t` is
stored through it. -/
structure RegRef where
  /-- The value read through the reference. -/
  load : Nat
  /-- The content of the referenced cell after a store through the reference. -/
  store : Nat → Nat

/-- The non-const member `Reg& get()` and `operator Reg& ()`: `return *ptr;`,
the cell itself handed out as a mutable lvalue. -/
def getRef (RegSize : Nat) (reg : Nat) : Option RegRef :=
  if checkRegSize RegSize then some { load := reg, store := fun val => val } else none

/-- The 32-bit word with exactly the bits `f .. l` set. -/
def rangeMask (f l : Nat) : Nat := 2 ^ (l + 1) - 2 ^ f

/-- The number of bits of the field `f .. l`. -/
def fieldWidth (f l : Nat) : Nat := l - f + 1

/-! ## Arithmetic facts about the machine operations -/

theorem two_pow_le_two_pow_32 {n : Nat} (h : n ≤ 32) : 2 ^ n ≤ 2 ^ 32 :=
  Nat.pow_le_pow_right (by decide) h

theorem shl64_one (w : Nat) (hw : w ≤ 32) : shl64 1 w = 2 ^ w := by
  have h1 : 2 ^ w ≤ 2 ^ 32 := two_pow_le_two_pow_32 hw
  unfold shl64
  rw [Nat.shiftLeft_eq, Nat.one_mul]
  apply Nat.mod_eq_of_lt
  calc 2 ^ w ≤ 2 ^ 32 := h1
    _ < 2 ^ 64 := by decide

theorem sub64_two_pow_one (w : Nat) (hw : w ≤ 32) : sub64 (2 ^ w) 1 = 2 ^ w - 1 := by
  have h1 : 2 ^ w ≤ 2 ^ 32 := two_pow_le_two_pow_32 hw
  have h0 : 1 ≤ 2 ^ w := Nat.one_le_two_pow
  unfold sub64
  norm_num at h1 ⊢
  omega

theorem fieldMask64_eq (f l : Nat) (hfl : f ≤ l) (hl : l < 32) :
    fieldMask64 (f : Int) (l : Int) = 2 ^ fieldWidth f l - 1 := by
  have hw : fieldWidth f l ≤ 32 := by unfold fieldWidth; omega
  have e : ((l : Int) - (f : Int) + 1).toNat = fieldWidth f l := by
    unfold fieldWidth; omega
  unfold fieldMask64
  rw [e, shl64_one _ hw, sub64_two_pow_one _ hw]

theorem checkBitNumber_natCast (W b : Nat) (hb : b < W) :
    checkBitNumber W (b : Int) = true := by
  simp [checkBitNumber]; omega

theorem checkBitRange_natCast (W f l : Nat) (hfl : f ≤ l) (hl : l < W) :
    checkBitRange W (f : Int) (l : Int) = true := by
  simp [checkBitRange, checkBitNumber]; omega

theorem field_lt (f l v : Nat) (hfl : f ≤ l) :
    v % 2 ^ fieldWidth f l * 2 ^ f < 2 ^ (l + 1) := by
  have h1 : v % 2 ^ fieldWidth f l < 2 ^ fieldWidth f l := Nat.mod_lt _ (Nat.two_pow_pos _)
  have h2 : 2 ^ fieldWidth f l * 2 ^ f = 2 ^ (l + 1) := by
    rw [← Nat.pow_add]; congr 1; unfold fieldWidth; omega
  calc v % 2 ^ fieldWidth f l * 2 ^ f < 2 ^ fieldWidth f l * 2 ^ f :=
        Nat.mul_lt_mul_of_pos_right h1 (Nat.two_pow_pos _)
    _ = 2 ^ (l + 1) := h2

theorem field_lt_32 (f l v : Nat) (hfl : f ≤ l) (hl : l < 32) :
    v % 2 ^ fieldWidth f l * 2 ^ f < 2 ^ 32 :=
  Nat.lt_of_lt_of_le (field_lt f l v hfl) (two_pow_le_two_pow_32 hl)

theorem convValToBitRangeVal64_eq (f l v : Nat) (hfl : f ≤ l) (hl : l < 32) :
    convValToBitRangeVal64 (f : Int) (l : Int) v = v % 2 ^ fieldWidth f l * 2 ^ f := by
  have h := field_lt_32 f l v hfl hl
  unfold convValToBitRangeVal64 shl64
  rw [fieldMask64_eq f l hfl hl, Nat.and_pow_two_sub_one_eq_mod, Int.toNat_ofNat,
    Nat.shiftLeft_eq]
  apply Nat.mod_eq_of_lt
  calc _ < 2 ^ 32 := h
    _ < 2 ^ 64 := by decide

theorem convValToBitRangeVal_eq (W f l v : Nat) (hW : W ≤ 32) (hfl : f ≤ l) (hl : l < W) :
    convValToBitRangeVal W (f : Int) (l : Int) v = some (v % 2 ^ fieldWidth f l * 2 ^ f) := by
  have hl32 : l < 32 := by omega
  unfold convValToBitRangeVal
  rw [checkBitRange_natCast W f l hfl hl, convValToBitRangeVal64_eq f l v hfl hl32]
  simp only [checkRegSize, hW, decide_True, Bool.and_self, if_true, u64ToU32]
  rw [Nat.mod_eq_of_lt (field_lt_32 f l v hfl hl32)]

theorem convBitRangeValToVal_eq (W f l x : Nat) (hW : W ≤ 32) (hfl : f ≤ l) (hl : l < W) :
    convBitRangeValToVal W (f : Int) (l : Int) x = some (x / 2 ^ f % 2 ^ fieldWidth f l) := by
  have hl32 : l < 32 := by omega
  have hw : fieldWidth f l ≤ 32 := by unfold fieldWidth; omega
  have h1 : x / 2 ^ f % 2 ^ fieldWidth f l < 2 ^ 32 :=
    Nat.lt_of_lt_of_le (Nat.mod_lt _ (Nat.two_pow_pos _)) (two_pow_le_two_pow_32 hw)
  unfold convBitRangeValToVal
  rw [checkBitRange_natCast W f l hfl hl, fieldMask64_eq f l hfl hl32,
    Nat.and_pow_two_sub_one_eq_mod, Int.toNat_ofNat, Nat.shiftRight_eq_div_pow]
  simp only [checkRegSize, hW, decide_True, Bool.and_self, if_true, u64ToU32]
  rw [Nat.mod_eq_of_lt h1]

/-! ## Bit-level facts -/

theorem rangeMask_eq_mul (f l : Nat) (hfl : f ≤ l) :
    rangeMask f l = (2 ^ fieldWidth f l - 1) * 2 ^ f := by
  have h2 : 2 ^ fieldWidth f l * 2 ^ f = 2 ^ (l + 1) := by
    rw [← Nat.pow_add]; congr 1; unfold fieldWidth; omega
  unfold rangeMask
  rw [Nat.sub_mul, h2, Nat.one_mul]

theorem testBit_rangeMask (f l i : Nat) (hfl : f ≤ l) :
    (rangeMask f l).testBit i = (decide (f ≤ i) && decide (i ≤ l)) := by
  rw [rangeMask_eq_mul f l hfl, ← Nat.shiftLeft_eq, Nat.testBit_shiftLeft,
    Nat.testBit_two_pow_sub_one]
  by_cases h1 : f ≤ i
  · by_cases h2 : i ≤ l
    · have : i - f < fieldWidth f l := by unfold fieldWidth; omega
      simp [h1, h2, this]
    · have : ¬ i - f < fieldWidth f l := by unfold fieldWidth; omega
      simp [h1, h2, this]
  · simp [h1]

theorem rangeMask_lt (f l : Nat) (hl : l < 32) : rangeMask f l < 2 ^ 32 := by
  have h1 : 2 ^ (l + 1) ≤ 2 ^ 32 := two_pow_le_two_pow_32 hl
  have h2 : 0 < 2 ^ f := Nat.two_pow_pos f
  unfold rangeMask
  omega

theorem testBit_field (f l v i : Nat) :
    (v % 2 ^ fieldWidth f l * 2 ^ f).testBit i =
      (decide (f ≤ i) && (decide (i - f < fieldWidth f l) && v.testBit (i - f))) := by
  rw [← Nat.shiftLeft_eq, Nat.testBit_shiftLeft, Nat.testBit_mod_two_pow]

theorem testBit_not32 (m i : Nat) (hm : m < 2 ^ 32) :
    (not32 m).testBit i = (decide (i < 32) && !m.testBit i) := by
  have e : not32 m = 2 ^ 32 - (m + 1) := by
    unfold not32
    rw [Nat.mod_eq_of_lt hm]
    omega
  rw [e, Nat.testBit_two_pow_sub_succ hm]

theorem not32_lt (m : Nat) : not32 m < 2 ^ 32 := by
  unfold not32
  omega

theorem testBit_of_lt_32 (r i : Nat) (hr : r < 2 ^ 32) (hi : 32 ≤ i) :
    r.testBit i = false :=
  Nat.testBit_lt_two_pow (Nat.lt_of_lt_of_le hr (Nat.pow_le_pow_right (by decide) hi))

theorem u32max_field (f l : Nat) (hfl : f ≤ l) (hl : l < 32) :
    u32max % 2 ^ fieldWidth f l * 2 ^ f = rangeMask f l := by
  apply Nat.eq_of_testBit_eq
  intro i
  rw [testBit_field, testBit_rangeMask f l i hfl]
  unfold u32max
  rw [Nat.testBit_two_pow_sub_one]
  by_cases h1 : f ≤ i
  · by_cases h2 : i ≤ l
    · have a : i - f < fieldWidth f l := by unfold fieldWidth; omega
      have b : i - f < 32 := by omega
      simp [h1, h2, a, b]
    · have a : ¬ i - f < fieldWidth f l := by unfold fieldWidth; omega
      simp [h1, h2, a]
  · simp [h1]

/-! ## Closed forms of the member functions on an accepted range -/

theorem convValToBitRangeVal_max (W f l : Nat) (hW : W ≤ 32) (hfl : f ≤ l) (hl : l < W) :
    convValToBitRangeVal W (f : Int) (l : Int) u32max = some (rangeMask f l) := by
  rw [convValToBitRangeVal_eq W f l u32max hW hfl hl, u32max_field f l hfl (by omega)]

theorem setBitRangeVal_eq (W f l v r : Nat) (hW : W ≤ 32) (hfl : f ≤ l) (hl : l < W) :
    setBitRangeVal W (f : Int) (l : Int) v r =
      some ((r &&& not32 (rangeMask f l)) ||| (v % 2 ^ fieldWidth f l * 2 ^ f)) := by
  unfold setBitRangeVal
  rw [checkBitRange_natCast W f l hfl hl, convValToBitRangeVal_max W f l hW hfl hl,
    convValToBitRangeVal_eq W f l v hW hfl hl]
  simp [checkRegSize, hW]

theorem getBitRangeVal_eq (W f l r : Nat) (hW : W ≤ 32) (hfl : f ≤ l) (hl : l < W) :
    getBitRangeVal W (f : Int) (l : Int) r = some (r / 2 ^ f % 2 ^ fieldWidth f l, r) := by
  unfold getBitRangeVal
  rw [checkBitRange_natCast W f l hfl hl, convBitRangeValToVal_eq W f l r hW hfl hl]
  simp [checkRegSize, hW]

theorem setBitRange_eq (W f l r : Nat) (hW : W ≤ 32) (hfl : f ≤ l) (hl : l < W) :
    setBitRange W (f : Int) (l : Int) r = some (r ||| rangeMask f l) := by
  unfold setBitRange
  rw [checkBitRange_natCast W f l hfl hl, convValToBitRangeVal_max W f l hW hfl hl]
  simp [checkRegSize, hW]

theorem resetBitRange_eq (W f l r : Nat) (hW : W ≤ 32) (hfl : f ≤ l) (hl : l < W) :
    resetBitRange W (f : Int) (l : Int) r = some (r &&& not32 (rangeMask f l)) := by
  unfold resetBitRange
  rw [checkBitRange_natCast W f l hfl hl, convValToBitRangeVal_max W f l hW hfl hl]
  simp [checkRegSize, hW]

theorem testBit_setBitRangeVal (f l v r i : Nat) (hfl : f ≤ l) (hl : l < 32)
    (hr : r < 2 ^ 32) :
    ((r &&& not32 (rangeMask f l)) ||| (v % 2 ^ fieldWidth f l * 2 ^ f)).testBit i =
      if f ≤ i ∧ i ≤ l then v.testBit (i - f) else r.testBit i := by
  rw [Nat.testBit_or, Nat.testBit_and, testBit_not32 _ _ (rangeMask_lt f l hl),
    testBit_rangeMask f l i hfl, testBit_field]
  by_cases h1 : f ≤ i
  · by_cases h2 : i ≤ l
    · have a : i - f < fieldWidth f l := by unfold fieldWidth; omega
      simp [h1, h2, a]
    · have a : ¬ i - f < fieldWidth f l := by unfold fieldWidth; omega
      by_cases h3 : i < 32
      · simp [h1, h2, a, h3]
      · have := testBit_of_lt_32 r i hr (by omega)
        simp [h1, h2, a, h3, this]
  · have h3 : i < 32 := by omega
    simp [h1, h3]

theorem testBit_getBitRangeVal (f l r i : Nat) :
    (r / 2 ^ f % 2 ^ fieldWidth f l).testBit i =
      (decide (i < fieldWidth f l) && r.testBit (f + i)) := by
  rw [Nat.testBit_mod_two_pow, ← Nat.shiftRight_eq_div_pow, Nat.testBit_shiftRight]

/-! ## The single-bit masks -/

theorem intToU32_shlInt_one (b : Nat) (hb : b < 32) : intToU32 (shlInt 1 b) = 2 ^ b := by
  interval_cases b <;> decide

theorem intToU32_notInt_shlInt_one (b : Nat) (hb : b < 32) :
    intToU32 (notInt (shlInt 1 b)) = not32 (2 ^ b) := by
  interval_cases b <;> decide

theorem two_pow_lt_32 (b : Nat) (hb : b < 32) : 2 ^ b < 2 ^ 32 :=
  Nat.pow_lt_pow_right (by decide) hb

theorem decide_and_two_pow (r b : Nat) : decide (r &&& 2 ^ b ≠ 0) = r.testBit b := by
  cases h : r.testBit b
  · have e : r &&& 2 ^ b = 0 := by
      apply Nat.eq_of_testBit_eq
      intro i
      rw [Nat.testBit_and, Nat.testBit_two_pow, Nat.zero_testBit]
      by_cases hi : b = i
      · subst hi; simp [h]
      · simp [hi]
    simp [e]
  · have e : (r &&& 2 ^ b).testBit b = true := by
      rw [Nat.testBit_and, Nat.testBit_two_pow_self, h]; rfl
    have ne : r &&& 2 ^ b ≠ 0 := by
      intro h0
      rw [h0, Nat.zero_testBit] at e
      exact Bool.noConfusion e
    simp [ne]

theorem setBit_eq (W b r : Nat) (hW : W ≤ 32) (hb : b < W) :
    setBit W (b : Int) r = some (r ||| 2 ^ b) := by
  unfold setBit
  rw [checkBitNumber_natCast W b hb, Int.toNat_ofNat, intToU32_shlInt_one b (by omega)]
  simp [checkRegSize, hW]

theorem resetBit_eq (W b r : Nat) (hW : W ≤ 32) (hb : b < W) :
    resetBit W (b : Int) r = some (r &&& not32 (2 ^ b)) := by
  unfold resetBit
  rw [checkBitNumber_natCast W b hb, Int.toNat_ofNat, intToU32_notInt_shlInt_one b (by omega)]
  simp [checkRegSize, hW]

theorem getBit_eq (W b r : Nat) (hW : W ≤ 32) (hb : b < W) :
    getBit W (b : Int) r = some (r.testBit b, r) := by
  unfold getBit
  rw [checkBitNumber_natCast W b hb, Int.toNat_ofNat, intToU32_shlInt_one b (by omega),
    decide_and_two_pow]
  simp [checkRegSize, hW]

/-! ## Facts shared by the set, reset and range operations -/

theorem rangeMask_single (b : Nat) : rangeMask b b = 2 ^ b := by
  unfold rangeMask
  rw [Nat.pow_succ]
  omega

theorem fieldWidth_single (b : Nat) : fieldWidth b b = 1 := by
  unfold fieldWidth
  omega

theorem div_mod_two_eq_testBit (r b : Nat) :
    r / 2 ^ b % 2 = if r.testBit b then 1 else 0 := by
  rw [Nat.testBit_to_div_mod]
  rcases Nat.mod_two_eq_zero_or_one (r / 2 ^ b) with h | h
  · simp [h]
  · simp [h]

theorem setBitRangeVal_lt (f l v r : Nat) (hfl : f ≤ l) (hl : l < 32) :
    (r &&& not32 (rangeMask f l)) ||| (v % 2 ^ fieldWidth f l * 2 ^ f) < 2 ^ 32 :=
  Nat.or_lt_two_pow (Nat.and_lt_two_pow _ (not32_lt _)) (field_lt_32 f l v hfl hl)

theorem testBit_setBitRange (f l r i : Nat) (hfl : f ≤ l) :
    (r ||| rangeMask f l).testBit i = if f ≤ i ∧ i ≤ l then true else r.testBit i := by
  rw [Nat.testBit_or, testBit_rangeMask f l i hfl]
  by_cases h : f ≤ i ∧ i ≤ l
  · simp [h]
  · rw [if_neg h]
    have : (decide (f ≤ i) && decide (i ≤ l)) = false := by
      simpa using h
    rw [this, Bool.or_false]

theorem testBit_resetBitRange (f l r i : Nat) (hfl : f ≤ l) (hl : l < 32) (hr : r < 2 ^ 32) :
    (r &&& not32 (rangeMask f l)).testBit i =
      if f ≤ i ∧ i ≤ l then false else r.testBit i := by
  rw [Nat.testBit_and, testBit_not32 _ _ (rangeMask_lt f l hl), testBit_rangeMask f l i hfl]
  by_cases h : f ≤ i ∧ i ≤ l
  · simp [h]
  · rw [if_neg h]
    have e : (decide (f ≤ i) && decide (i ≤ l)) = false := by
      simpa using h
    rw [e]
    by_cases h3 : i < 32
    · simp [h3]
    · simp [h3, testBit_of_lt_32 r i hr (by omega)]

theorem setBitRangeVal_max_eq_or (f l r : Nat) (hfl : f ≤ l) (hl : l < 32) (hr : r < 2 ^ 32) :
    (r &&& not32 (rangeMask f l)) ||| (u32max % 2 ^ fieldWidth f l * 2 ^ f) =
      r ||| rangeMask f l := by
  apply Nat.eq_of_testBit_eq
  intro i
  rw [testBit_setBitRangeVal f l u32max r i hfl hl hr, testBit_setBitRange f l r i hfl]
  by_cases h : f ≤ i ∧ i ≤ l
  · rw [if_pos h, if_pos h]
    unfold u32max
    rw [Nat.testBit_two_pow_sub_one]
    simp
    omega
  · rw [if_neg h, if_neg h]

theorem or_idem (r m : Nat) : (r ||| m) ||| m = r ||| m := by
  apply Nat.eq_of_testBit_eq
  intro i
  rw [Nat.testBit_or, Nat.testBit_or]
  cases r.testBit i <;> cases m.testBit i <;> rfl

theorem and_idem (r m : Nat) : (r &&& m) &&& m = r &&& m := by
  apply Nat.eq_of_testBit_eq
  intro i
  rw [Nat.testBit_and, Nat.testBit_and]
  cases r.testBit i <;> cases m.testBit i <;> rfl

theorem testBit_two_writes (fa la fb lb va vb r i : Nat) (ha : fa ≤ la) (hb : fb ≤ lb)
    (hla : la < 32) (hlb : lb < 32) (hr : r < 2 ^ 32) :
    ((((r &&& not32 (rangeMask fa la)) ||| (va % 2 ^ fieldWidth fa la * 2 ^ fa)) &&&
        not32 (rangeMask fb lb)) ||| (vb % 2 ^ fieldWidth fb lb * 2 ^ fb)).testBit i =
      if fb ≤ i ∧ i ≤ lb then vb.testBit (i - fb)
      else if fa ≤ i ∧ i ≤ la then va.testBit (i - fa) else r.testBit i := by
  rw [testBit_setBitRangeVal fb lb vb _ i hb hlb (setBitRangeVal_lt fa la va r ha hla),
    testBit_setBitRangeVal fa la va r i ha hla hr]

theorem getRef_load_store (W r : Nat) (hW : W ≤ 32) :
    ∃ ref, getRef W r = some ref ∧ ref.load = r ∧ ∀ val, ref.store val = val := by
  refine ⟨{ load := r, store := fun val => val }, ?_, rfl, fun _ => rfl⟩
  simp [getRef, checkRegSize, hW]

/-- C1 (non-destructive field write): on an accepted range of a register of
width at most 32, `setBitRangeVal<FirstBit, LastBit>(v)` is defined and the
content `r'` it leaves agrees with the previous content `r` outside the field:
`r' & ~M = r & ~M` for the mask `M` of the bits `FirstBit .. LastBit`, every
bit position outside the range is unchanged, and `M` has exactly the bits of
the range set. -/
theorem setBitRangeVal_frame (RegSize : Nat) (FirstBit LastBit : Int) (r v : Nat)
    (hW : RegSize ≤ 32) (hF : 0 ≤ FirstBit) (hFL : FirstBit ≤ LastBit)
    (hL : LastBit < (RegSize : Int)) (hr : r < 2 ^ 32) :
    ∃ r', setBitRangeVal RegSize FirstBit LastBit v r = some r' ∧ r' < 2 ^ 32 ∧
      r' &&& not32 (rangeMask FirstBit.toNat LastBit.toNat) =
        r &&& not32 (rangeMask FirstBit.toNat LastBit.toNat) ∧
      (∀ i, ¬ (FirstBit.toNat ≤ i ∧ i ≤ LastBit.toNat) → r'.testBit i = r.testBit i) ∧
      (∀ i, (rangeMask FirstBit.toNat LastBit.toNat).testBit i = true ↔
        (FirstBit.toNat ≤ i ∧ i ≤ LastBit.toNat)) := by
  obtain ⟨f, rfl⟩ := Int.eq_ofNat_of_zero_le hF
  obtain ⟨l, rfl⟩ := Int.eq_ofNat_of_zero_le (le_trans hF hFL)
  have hfl : f ≤ l := by omega
  have hl : l < RegSize := by omega
  have hl32 : l < 32 := by omega
  simp only [Int.toNat_ofNat]
  refine ⟨_, setBitRangeVal_eq RegSize f l v r hW hfl hl, ?_, ?_, ?_, ?_⟩
  · exact Nat.or_lt_two_pow (Nat.and_lt_two_pow _ (not32_lt _)) (field_lt_32 f l v hfl hl32)
  · apply Nat.eq_of_testBit_eq
    intro i
    rw [Nat.testBit_and, Nat.testBit_and, testBit_setBitRangeVal f l v r i hfl hl32 hr,
      testBit_not32 _ _ (rangeMask_lt f l hl32), testBit_rangeMask f l i hfl]
    by_cases h : f ≤ i ∧ i ≤ l
    · simp [h]
    · rw [if_neg h]
  · intro i h
    rw [testBit_setBitRangeVal f l v r i hfl hl32 hr, if_neg h]
  · intro i
    rw [testBit_rangeMask f l i hfl]
    simp

/-- Instance of C1: the range `4 .. 7` of a full register holding `0xFFFF0F0F`,
written with `0xFA`. -/
theorem setBitRangeVal_frame_witness :
    ∃ r', setBitRangeVal 32 4 7 0xFA 0xFFFF0F0F = some r' ∧ r' < 2 ^ 32 ∧
      r' &&& not32 (rangeMask (4 : Int).toNat (7 : Int).toNat) =
        0xFFFF0F0F &&& not32 (rangeMask (4 : Int).toNat (7 : Int).toNat) ∧
      (∀ i, ¬ ((4 : Int).toNat ≤ i ∧ i ≤ (7 : Int).toNat) →
        r'.testBit i = (0xFFFF0F0F : Nat).testBit i) ∧
      (∀ i, (rangeMask (4 : Int).toNat (7 : Int).toNat).testBit i = true ↔
        ((4 : Int).toNat ≤ i ∧ i ≤ (7 : Int).toNat)) :=
  setBitRangeVal_frame 32 4 7 0xFFFF0F0F 0xFA (by decide) (by decide) (by decide)
    (by decide) (by decide)

/-- C2 (masking on overflowing input): on an accepted range,
`setBitRangeVal<FirstBit, LastBit>(v)` leaves
`(r & ~M) | ((v mod 2^(LastBit-FirstBit+1)) << FirstBit)`, a following
`getBitRangeVal<FirstBit, LastBit>()` returns `v mod 2^(LastBit-FirstBit+1)`
and leaves the register as it is, and two values with the same low
`LastBit-FirstBit+1` bits leave the same register: the high bits of `v` are
written nowhere. -/
theorem setBitRangeVal_masks (RegSize : Nat) (FirstBit LastBit : Int) (r v : Nat)
    (hW : RegSize ≤ 32) (hF : 0 ≤ FirstBit) (hFL : FirstBit ≤ LastBit)
    (hL : LastBit < (RegSize : Int)) (hr : r < 2 ^ 32) :
    ∃ r', setBitRangeVal RegSize FirstBit LastBit v r = some r' ∧
      getBitRangeVal RegSize FirstBit LastBit r' =
        some (v % 2 ^ fieldWidth FirstBit.toNat LastBit.toNat, r') ∧
      r' = (r &&& not32 (rangeMask FirstBit.toNat LastBit.toNat)) |||
        ((v % 2 ^ fieldWidth FirstBit.toNat LastBit.toNat) <<< FirstBit.toNat) ∧
      (∀ v', v' % 2 ^ fieldWidth FirstBit.toNat LastBit.toNat =
          v % 2 ^ fieldWidth FirstBit.toNat LastBit.toNat →
        setBitRangeVal RegSize FirstBit LastBit v' r = some r') := by
  obtain ⟨f, rfl⟩ := Int.eq_ofNat_of_zero_le hF
  obtain ⟨l, rfl⟩ := Int.eq_ofNat_of_zero_le (le_trans hF hFL)
  have hfl : f ≤ l := by omega
  have hl : l < RegSize := by omega
  have hl32 : l < 32 := by omega
  simp only [Int.toNat_ofNat]
  refine ⟨_, setBitRangeVal_eq RegSize f l v r hW hfl hl, ?_, ?_, ?_⟩
  · rw [getBitRangeVal_eq RegSize f l _ hW hfl hl]
    congr 2
    apply Nat.eq_of_testBit_eq
    intro i
    rw [testBit_getBitRangeVal, testBit_setBitRangeVal f l v r (f + i) hfl hl32 hr,
      Nat.testBit_mod_two_pow]
    by_cases h : i < fieldWidth f l
    · have h2 : f ≤ f + i ∧ f + i ≤ l := by unfold fieldWidth at h; omega
      simp [h, h2]
    · simp [h]
  · rw [Nat.shiftLeft_eq]
  · intro v' hv'
    rw [setBitRangeVal_eq RegSize f l v' r hW hfl hl, hv']

/-- Instance of C2: `0xFA` written to the four-bit range `4 .. 7`. -/
theorem setBitRangeVal_masks_witness :
    ∃ r', setBitRangeVal 32 4 7 0xFA 0xFFFF0F0F = some r' ∧
      getBitRangeVal 32 4 7 r' =
        some (0xFA % 2 ^ fieldWidth (4 : Int).toNat (7 : Int).toNat, r') ∧
      r' = (0xFFFF0F0F &&& not32 (rangeMask (4 : Int).toNat (7 : Int).toNat)) |||
        ((0xFA % 2 ^ fieldWidth (4 : Int).toNat (7 : Int).toNat) <<< (4 : Int).toNat) ∧
      (∀ v', v' % 2 ^ fieldWidth (4 : Int).toNat (7 : Int).toNat =
          0xFA % 2 ^ fieldWidth (4 : Int).toNat (7 : Int).toNat →
        setBitRangeVal 32 4 7 v' 0xFFFF0F0F = some r') :=
  setBitRangeVal_masks 32 4 7 0xFFFF0F0F 0xFA (by decide) (by decide) (by decide)
    (by decide) (by decide)

/-- C3 (mutual inverse): on an accepted range, `convBitRangeValToVal` followed
by `convValToBitRangeVal` is defined and returns `x & range_mask`, where the
mask has exactly the bits `FirstBit .. LastBit` set. -/
theorem conv_field_then_value (RegSize : Nat) (FirstBit LastBit : Int) (x : Nat)
    (hW : RegSize ≤ 32) (hF : 0 ≤ FirstBit) (hFL : FirstBit ≤ LastBit)
    (hL : LastBit < (RegSize : Int)) :
    (convBitRangeValToVal RegSize FirstBit LastBit x).bind
        (convValToBitRangeVal RegSize FirstBit LastBit) =
      some (x &&& rangeMask FirstBit.toNat LastBit.toNat) ∧
    rangeMask FirstBit.toNat LastBit.toNat < 2 ^ 32 ∧
    (∀ i, (rangeMask FirstBit.toNat LastBit.toNat).testBit i = true ↔
      (FirstBit.toNat ≤ i ∧ i ≤ LastBit.toNat)) := by
  obtain ⟨f, rfl⟩ := Int.eq_ofNat_of_zero_le hF
  obtain ⟨l, rfl⟩ := Int.eq_ofNat_of_zero_le (le_trans hF hFL)
  have hfl : f ≤ l := by omega
  have hl : l < RegSize := by omega
  have hl32 : l < 32 := by omega
  simp only [Int.toNat_ofNat]
  refine ⟨?_, rangeMask_lt f l hl32, ?_⟩
  · rw [convBitRangeValToVal_eq RegSize f l x hW hfl hl, Option.some_bind,
      convValToBitRangeVal_eq RegSize f l _ hW hfl hl]
    congr 1
    apply Nat.eq_of_testBit_eq
    intro i
    rw [testBit_field, testBit_getBitRangeVal, Nat.testBit_and, testBit_rangeMask f l i hfl]
    by_cases h1 : f ≤ i
    · have e : f + (i - f) = i := by omega
      by_cases h2 : i ≤ l
      · have a : i - f < fieldWidth f l := by unfold fieldWidth; omega
        simp [h1, h2, a, e]
      · have a : ¬ i - f < fieldWidth f l := by unfold fieldWidth; omega
        simp [h1, h2, a]
    · simp [h1]
  · intro i
    rw [testBit_rangeMask f l i hfl]
    simp

/-- Instance of C3: the range `8 .. 15` of a 16-bit register, `x = 0xDEADBEEF`. -/
theorem conv_field_then_value_witness :
    (convBitRangeValToVal 16 8 15 0xDEADBEEF).bind (convValToBitRangeVal 16 8 15) =
      some (0xDEADBEEF &&& rangeMask (8 : Int).toNat (15 : Int).toNat) ∧
    rangeMask (8 : Int).toNat (15 : Int).toNat < 2 ^ 32 ∧
    (∀ i, (rangeMask (8 : Int).toNat (15 : Int).toNat).testBit i = true ↔
      ((8 : Int).toNat ≤ i ∧ i ≤ (15 : Int).toNat)) :=
  conv_field_then_value 16 8 15 0xDEADBEEF (by decide) (by decide) (by decide) (by decide)

/-- C4 (full-width round trip): for width 32 and the range `0 .. 31` both
converters are the identity on every 32-bit `x`, so value-to-field followed by
field-to-value returns `x`; the four `static_assert`s on `<0, 31>` (at the
largest and the smallest `uint32_t`) hold. -/
theorem full_width_round_trip (x : Nat) (hx : x < 2 ^ 32) :
    convValToBitRangeVal 32 0 31 x = some x ∧
    convBitRangeValToVal 32 0 31 x = some x ∧
    (convValToBitRangeVal 32 0 31 x).bind (convBitRangeValToVal 32 0 31) = some x ∧
    convValToBitRangeVal 32 0 31 u32max = some u32max ∧
    convValToBitRangeVal 32 0 31 u32min = some u32min ∧
    convBitRangeValToVal 32 0 31 u32max = some u32max ∧
    convBitRangeValToVal 32 0 31 u32min = some u32min := by
  have e : fieldWidth 0 31 = 32 := rfl
  have a : convValToBitRangeVal 32 0 31 x = some x := by
    have h := convValToBitRangeVal_eq 32 0 31 x (by decide) (by decide) (by decide)
    rw [e, Nat.mod_eq_of_lt hx, Nat.pow_zero, Nat.mul_one] at h
    exact h
  have b : convBitRangeValToVal 32 0 31 x = some x := by
    have h := convBitRangeValToVal_eq 32 0 31 x (by decide) (by decide) (by decide)
    rw [e, Nat.pow_zero, Nat.div_one, Nat.mod_eq_of_lt hx] at h
    exact h
  refine ⟨a, b, ?_, by decide, by decide, by decide, by decide⟩
  rw [a, Option.some_bind, b]

/-- Instance of C4 at `x = 0x12345678`. -/
theorem full_width_round_trip_witness :
    convValToBitRangeVal 32 0 31 0x12345678 = some 0x12345678 ∧
    convBitRangeValToVal 32 0 31 0x12345678 = some 0x12345678 ∧
    (convValToBitRangeVal 32 0 31 0x12345678).bind (convBitRangeValToVal 32 0 31) =
      some 0x12345678 ∧
    convValToBitRangeVal 32 0 31 u32max = some u32max ∧
    convValToBitRangeVal 32 0 31 u32min = some u32min ∧
    convBitRangeValToVal 32 0 31 u32max = some u32max ∧
    convBitRangeValToVal 32 0 31 u32min = some u32min :=
  full_width_round_trip 0x12345678 (by decide)

/-- C5 (value to field is mask-then-shift without overflow): on an accepted
range the shift amount `LastBit - FirstBit + 1` of the mask lies in `1 .. 32`,
so `1ull << amount` is less than `2 ^ 64` and the mask is
`2 ^ amount - 1`; the masked value times `2 ^ FirstBit` is below `2 ^ 32`, so
neither the 64-bit shift nor the conversion to `uint32_t` drops a bit, and the
function returns exactly `(v mod 2 ^ amount) * 2 ^ FirstBit`. -/
theorem convValToBitRangeVal_exact (RegSize : Nat) (FirstBit LastBit : Int) (v : Nat)
    (hW : RegSize ≤ 32) (hF : 0 ≤ FirstBit) (hFL : FirstBit ≤ LastBit)
    (hL : LastBit < (RegSize : Int)) :
    convValToBitRangeVal RegSize FirstBit LastBit v =
      some (v % 2 ^ fieldWidth FirstBit.toNat LastBit.toNat * 2 ^ FirstBit.toNat) ∧
    1 ≤ LastBit - FirstBit + 1 ∧ LastBit - FirstBit + 1 ≤ 32 ∧
    (LastBit - FirstBit + 1).toNat = fieldWidth FirstBit.toNat LastBit.toNat ∧
    1 * 2 ^ (LastBit - FirstBit + 1).toNat < 2 ^ 64 ∧
    fieldMask64 FirstBit LastBit = 2 ^ fieldWidth FirstBit.toNat LastBit.toNat - 1 ∧
    (v &&& fieldMask64 FirstBit LastBit) * 2 ^ FirstBit.toNat < 2 ^ 32 ∧
    convValToBitRangeVal64 FirstBit LastBit v =
      (v &&& fieldMask64 FirstBit LastBit) * 2 ^ FirstBit.toNat ∧
    u64ToU32 (convValToBitRangeVal64 FirstBit LastBit v) =
      convValToBitRangeVal64 FirstBit LastBit v := by
  obtain ⟨f, rfl⟩ := Int.eq_ofNat_of_zero_le hF
  obtain ⟨l, rfl⟩ := Int.eq_ofNat_of_zero_le (le_trans hF hFL)
  have hfl : f ≤ l := by omega
  have hl : l < RegSize := by omega
  have hl32 : l < 32 := by omega
  have hw : fieldWidth f l ≤ 32 := by unfold fieldWidth; omega
  have e : ((l : Int) - (f : Int) + 1).toNat = fieldWidth f l := by
    unfold fieldWidth; omega
  have hm := fieldMask64_eq f l hfl hl32
  have h64 := convValToBitRangeVal64_eq f l v hfl hl32
  have hlt := field_lt_32 f l v hfl hl32
  simp only [Int.toNat_ofNat]
  refine ⟨convValToBitRangeVal_eq RegSize f l v hW hfl hl, by omega, by omega, e, ?_, hm,
    ?_, ?_, ?_⟩
  · rw [e, Nat.one_mul]
    calc 2 ^ fieldWidth f l ≤ 2 ^ 32 := two_pow_le_two_pow_32 hw
      _ < 2 ^ 64 := by decide
  · rw [hm, Nat.and_pow_two_sub_one_eq_mod]
    exact hlt
  · rw [h64, hm, Nat.and_pow_two_sub_one_eq_mod]
  · rw [h64]
    exact Nat.mod_eq_of_lt hlt

/-- Instance of C5: the full range `0 .. 31` with the all-ones value. -/
theorem convValToBitRangeVal_exact_witness :
    convValToBitRangeVal 32 0 31 0xFFFFFFFF =
      some (0xFFFFFFFF % 2 ^ fieldWidth (0 : Int).toNat (31 : Int).toNat *
        2 ^ (0 : Int).toNat) ∧
    1 ≤ (31 : Int) - 0 + 1 ∧ (31 : Int) - 0 + 1 ≤ 32 ∧
    ((31 : Int) - 0 + 1).toNat = fieldWidth (0 : Int).toNat (31 : Int).toNat ∧
    1 * 2 ^ ((31 : Int) - 0 + 1).toNat < 2 ^ 64 ∧
    fieldMask64 0 31 = 2 ^ fieldWidth (0 : Int).toNat (31 : Int).toNat - 1 ∧
    (0xFFFFFFFF &&& fieldMask64 0 31) * 2 ^ (0 : Int).toNat < 2 ^ 32 ∧
    convValToBitRangeVal64 0 31 0xFFFFFFFF =
      (0xFFFFFFFF &&& fieldMask64 0 31) * 2 ^ (0 : Int).toNat ∧
    u64ToU32 (convValToBitRangeVal64 0 31 0xFFFFFFFF) =
      convValToBitRangeVal64 0 31 0xFFFFFFFF :=
  convValToBitRangeVal_exact 32 0 31 0xFFFFFFFF (by decide) (by decide) (by decide)
    (by decide)

/-- C6 (right-justified field extraction): on an accepted range
`getBitRangeVal<FirstBit, LastBit>()` returns what `convBitRangeValToVal`
returns on the register content, namely
`floor(r / 2 ^ FirstBit) mod 2 ^ (LastBit - FirstBit + 1)`, and leaves the
register as it is; bit `i` of the result is bit `FirstBit + i` of `r` for
`i ≤ LastBit - FirstBit`, every higher bit of the result is 0, and the result
is below `2 ^ (LastBit - FirstBit + 1)`. -/
theorem getBitRangeVal_right_justified (RegSize : Nat) (FirstBit LastBit : Int) (r : Nat)
    (hW : RegSize ≤ 32) (hF : 0 ≤ FirstBit) (hFL : FirstBit ≤ LastBit)
    (hL : LastBit < (RegSize : Int)) :
    ∃ res, getBitRangeVal RegSize FirstBit LastBit r = some (res, r) ∧
      convBitRangeValToVal RegSize FirstBit LastBit r = some res ∧
      res = r / 2 ^ FirstBit.toNat % 2 ^ (LastBit.toNat - FirstBit.toNat + 1) ∧
      res < 2 ^ (LastBit.toNat - FirstBit.toNat + 1) ∧
      (∀ i, i ≤ LastBit.toNat - FirstBit.toNat →
        res.testBit i = r.testBit (FirstBit.toNat + i)) ∧
      (∀ i, LastBit.toNat - FirstBit.toNat < i → res.testBit i = false) := by
  obtain ⟨f, rfl⟩ := Int.eq_ofNat_of_zero_le hF
  obtain ⟨l, rfl⟩ := Int.eq_ofNat_of_zero_le (le_trans hF hFL)
  have hfl : f ≤ l := by omega
  have hl : l < RegSize := by omega
  simp only [Int.toNat_ofNat]
  refine ⟨_, getBitRangeVal_eq RegSize f l r hW hfl hl,
    convBitRangeValToVal_eq RegSize f l r hW hfl hl, rfl,
    Nat.mod_lt _ (Nat.two_pow_pos _), ?_, ?_⟩
  · intro i hi
    have a : i < fieldWidth f l := by unfold fieldWidth; omega
    rw [testBit_getBitRangeVal]
    simp [a]
  · intro i hi
    have a : ¬ i < fieldWidth f l := by unfold fieldWidth; omega
    rw [testBit_getBitRangeVal]
    simp [a]

/-- Instance of C6: the range `4 .. 7` of a register holding `0xA5`. -/
theorem getBitRangeVal_right_justified_witness :
    ∃ res, getBitRangeVal 32 4 7 0xA5 = some (res, 0xA5) ∧
      convBitRangeValToVal 32 4 7 0xA5 = some res ∧
      res = 0xA5 / 2 ^ (4 : Int).toNat % 2 ^ ((7 : Int).toNat - (4 : Int).toNat + 1) ∧
      res < 2 ^ ((7 : Int).toNat - (4 : Int).toNat + 1) ∧
      (∀ i, i ≤ (7 : Int).toNat - (4 : Int).toNat →
        res.testBit i = (0xA5 : Nat).testBit ((4 : Int).toNat + i)) ∧
      (∀ i, (7 : Int).toNat - (4 : Int).toNat < i → res.testBit i = false) :=
  getBitRangeVal_right_justified 32 4 7 0xA5 (by decide) (by decide) (by decide) (by decide)

/-- C7 (top boundary): for width 32 and a range `FirstBit .. 31`,
`convValToBitRangeVal` returns `(v & (2 ^ (32 - FirstBit) - 1)) << FirstBit`,
a value below `2 ^ 32` (no top bit is lost), and `convBitRangeValToVal` returns
`x >> FirstBit`; the four `static_assert`s on `<30, 31>` and `<31, 31>` hold,
with `1 << 31` and `0x3 << 30` the `int` expressions of the header. -/
theorem top_boundary (FirstBit : Int) (v x : Nat) (hF : 0 ≤ FirstBit) (hF31 : FirstBit ≤ 31)
    (hx : x < 2 ^ 32) :
    convValToBitRangeVal 32 FirstBit 31 v =
      some ((v &&& (2 ^ (32 - FirstBit.toNat) - 1)) <<< FirstBit.toNat) ∧
    (v &&& (2 ^ (32 - FirstBit.toNat) - 1)) <<< FirstBit.toNat < 2 ^ 32 ∧
    convBitRangeValToVal 32 FirstBit 31 x = some (x >>> FirstBit.toNat) ∧
    convValToBitRangeVal 32 31 31 0x3 = some (intToU32 (shlInt 1 31)) ∧
    intToU32 (shlInt 1 31) = 2 ^ 31 ∧
    convBitRangeValToVal 32 31 31 (intToU32 (shlInt 1 31)) = some 1 ∧
    convValToBitRangeVal 32 30 31 0x3 = some (intToU32 (shlInt 0x3 30)) ∧
    intToU32 (shlInt 0x3 30) = 3 * 2 ^ 30 ∧
    convBitRangeValToVal 32 30 31 (intToU32 (shlInt 0x3 30)) = some 0x3 := by
  obtain ⟨f, rfl⟩ := Int.eq_ofNat_of_zero_le hF
  have hf : f ≤ 31 := by omega
  have e : fieldWidth f 31 = 32 - f := by unfold fieldWidth; omega
  have hv := convValToBitRangeVal_eq 32 f 31 v (by decide) hf (by decide)
  have hlt := field_lt_32 f 31 v hf (by decide)
  have hxv := convBitRangeValToVal_eq 32 f 31 x (by decide) hf (by decide)
  have hdiv : x / 2 ^ f < 2 ^ (32 - f) := by
    apply Nat.div_lt_of_lt_mul
    rw [← Nat.pow_add]
    have : f + (32 - f) = 32 := by omega
    rw [this]
    exact hx
  simp only [Int.toNat_ofNat]
  rw [e] at hv hlt hxv
  rw [Nat.mod_eq_of_lt hdiv] at hxv
  have n31 : ((31 : Nat) : Int) = 31 := rfl
  rw [n31] at hv hxv
  refine ⟨?_, ?_, ?_, by decide, by decide, by decide, by decide, by decide, by decide⟩
  · rw [Nat.and_pow_two_sub_one_eq_mod, Nat.shiftLeft_eq]
    exact hv
  · rw [Nat.and_pow_two_sub_one_eq_mod, Nat.shiftLeft_eq]
    exact hlt
  · rw [Nat.shiftRight_eq_div_pow]
    exact hxv

/-- Instance of C7: the range `28 .. 31`. -/
theorem top_boundary_witness :
    convValToBitRangeVal 32 28 31 0xAB =
      some ((0xAB &&& (2 ^ (32 - (28 : Int).toNat) - 1)) <<< (28 : Int).toNat) ∧
    (0xAB &&& (2 ^ (32 - (28 : Int).toNat) - 1)) <<< (28 : Int).toNat < 2 ^ 32 ∧
    convBitRangeValToVal 32 28 31 0xB0000000 = some (0xB0000000 >>> (28 : Int).toNat) ∧
    convValToBitRangeVal 32 31 31 0x3 = some (intToU32 (shlInt 1 31)) ∧
    intToU32 (shlInt 1 31) = 2 ^ 31 ∧
    convBitRangeValToVal 32 31 31 (intToU32 (shlInt 1 31)) = some 1 ∧
    convValToBitRangeVal 32 30 31 0x3 = some (intToU32 (shlInt 0x3 30)) ∧
    intToU32 (shlInt 0x3 30) = 3 * 2 ^ 30 ∧
    convBitRangeValToVal 32 30 31 (intToU32 (shlInt 0x3 30)) = some 0x3 :=
  top_boundary 28 0xAB 0xB0000000 (by decide) (by decide) (by decide)

/-- C8 (`setBit`): for an accepted bit index (bit 31 included, where `1 << Bit`
is the most negative `int`) `setBit<Bit>()` leaves `r | 2 ^ Bit`: bit `Bit` is
1 and every other bit is unchanged. -/
theorem setBit_spec (RegSize : Nat) (Bit : Int) (r : Nat) (hW : RegSize ≤ 32)
    (hB0 : 0 ≤ Bit) (hB : Bit < (RegSize : Int)) (hr : r < 2 ^ 32) :
    ∃ r', setBit RegSize Bit r = some r' ∧ r' = r ||| 2 ^ Bit.toNat ∧ r' < 2 ^ 32 ∧
      r'.testBit Bit.toNat = true ∧
      (∀ i, i ≠ Bit.toNat → r'.testBit i = r.testBit i) := by
  obtain ⟨b, rfl⟩ := Int.eq_ofNat_of_zero_le hB0
  have hb : b < RegSize := by omega
  have hb32 : b < 32 := by omega
  simp only [Int.toNat_ofNat]
  refine ⟨_, setBit_eq RegSize b r hW hb, rfl,
    Nat.or_lt_two_pow hr (two_pow_lt_32 b hb32), ?_, ?_⟩
  · rw [Nat.testBit_or, Nat.testBit_two_pow_self, Bool.or_true]
  · intro i hi
    rw [Nat.testBit_or, Nat.testBit_two_pow_of_ne (Ne.symm hi), Bool.or_false]

/-- Instance of C8: bit 31 of an empty full-width register. -/
theorem setBit_spec_witness :
    ∃ r', setBit 32 31 0x00000001 = some r' ∧ r' = 0x00000001 ||| 2 ^ (31 : Int).toNat ∧
      r' < 2 ^ 32 ∧ r'.testBit (31 : Int).toNat = true ∧
      (∀ i, i ≠ (31 : Int).toNat → r'.testBit i = (0x00000001 : Nat).testBit i) :=
  setBit_spec 32 31 0x00000001 (by decide) (by decide) (by decide) (by decide)

/-- C9 (`resetBit`): for an accepted bit index (bit 31 included, where
`~(1 << Bit)` is the largest `int`) `resetBit<Bit>()` leaves `r & ~2 ^ Bit`,
the complement taken over 32 bits: bit `Bit` is 0 and every other bit is
unchanged. -/
theorem resetBit_spec (RegSize : Nat) (Bit : Int) (r : Nat) (hW : RegSize ≤ 32)
    (hB0 : 0 ≤ Bit) (hB : Bit < (RegSize : Int)) (hr : r < 2 ^ 32) :
    ∃ r', resetBit RegSize Bit r = some r' ∧ r' = r &&& (2 ^ 32 - 1 - 2 ^ Bit.toNat) ∧
      r' < 2 ^ 32 ∧ r'.testBit Bit.toNat = false ∧
      (∀ i, i ≠ Bit.toNat → r'.testBit i = r.testBit i) := by
  obtain ⟨b, rfl⟩ := Int.eq_ofNat_of_zero_le hB0
  have hb : b < RegSize := by omega
  have hb32 : b < 32 := by omega
  have hp := two_pow_lt_32 b hb32
  have e : not32 (2 ^ b) = 2 ^ 32 - 1 - 2 ^ b := by
    unfold not32
    rw [Nat.mod_eq_of_lt hp]
  simp only [Int.toNat_ofNat]
  refine ⟨_, resetBit_eq RegSize b r hW hb, by rw [e],
    Nat.and_lt_two_pow _ (not32_lt _), ?_, ?_⟩
  · rw [Nat.testBit_and, testBit_not32 _ _ hp, Nat.testBit_two_pow_self]
    simp
  · intro i hi
    rw [Nat.testBit_and, testBit_not32 _ _ hp, Nat.testBit_two_pow_of_ne (Ne.symm hi)]
    by_cases h : i < 32
    · simp [h]
    · simp [h, testBit_of_lt_32 r i hr (by omega)]

/-- Instance of C9: bit 31 of a full register of ones. -/
theorem resetBit_spec_witness :
    ∃ r', resetBit 32 31 0xFFFFFFFF = some r' ∧
      r' = 0xFFFFFFFF &&& (2 ^ 32 - 1 - 2 ^ (31 : Int).toNat) ∧
      r' < 2 ^ 32 ∧ r'.testBit (31 : Int).toNat = false ∧
      (∀ i, i ≠ (31 : Int).toNat → r'.testBit i = (0xFFFFFFFF : Nat).testBit i) :=
  resetBit_spec 32 31 0xFFFFFFFF (by decide) (by decide) (by decide) (by decide)

/-- C10 (`getBit`): for an accepted bit index (bit 31 included) `getBit<Bit>()`
returns `true` exactly when bit `Bit` of the register is 1, leaves the register
as it is, and returns the same on any two contents that agree at bit `Bit`. -/
theorem getBit_spec (RegSize : Nat) (Bit : Int) (r : Nat) (hW : RegSize ≤ 32)
    (hB0 : 0 ≤ Bit) (hB : Bit < (RegSize : Int)) :
    getBit RegSize Bit r = some (r.testBit Bit.toNat, r) ∧
    (∀ r2, r2.testBit Bit.toNat = r.testBit Bit.toNat →
      (getBit RegSize Bit r2).map Prod.fst = (getBit RegSize Bit r).map Prod.fst) := by
  obtain ⟨b, rfl⟩ := Int.eq_ofNat_of_zero_le hB0
  have hb : b < RegSize := by omega
  simp only [Int.toNat_ofNat]
  refine ⟨getBit_eq RegSize b r hW hb, ?_⟩
  intro r2 h
  rw [getBit_eq RegSize b r hW hb, getBit_eq RegSize b r2 hW hb, Option.map_some',
    Option.map_some', h]

/-- Instance of C10: bit 31 of `0x80000001`. -/
theorem getBit_spec_witness :
    getBit 32 31 0x80000001 = some ((0x80000001 : Nat).testBit (31 : Int).toNat, 0x80000001) ∧
    (∀ r2, r2.testBit (31 : Int).toNat = (0x80000001 : Nat).testBit (31 : Int).toNat →
      (getBit 32 31 r2).map Prod.fst = (getBit 32 31 0x80000001).map Prod.fst) :=
  getBit_spec 32 31 0x80000001 (by decide) (by decide) (by decide)

/-- C11 (single-bit field equivalence): for an accepted bit index `B`,
`getBitRangeVal<B, B>()` is 1 when `getBit<B>()` is true and 0 otherwise, on
every register content. -/
theorem single_bit_field (RegSize : Nat) (B : Int) (r : Nat) (hW : RegSize ≤ 32)
    (hB0 : 0 ≤ B) (hB : B < (RegSize : Int)) :
    ∃ bit, getBit RegSize B r = some (bit, r) ∧
      getBitRangeVal RegSize B B r = some (if bit then 1 else 0, r) := by
  obtain ⟨b, rfl⟩ := Int.eq_ofNat_of_zero_le hB0
  have hb : b < RegSize := by omega
  refine ⟨_, getBit_eq RegSize b r hW hb, ?_⟩
  rw [getBitRangeVal_eq RegSize b b r hW (Nat.le_refl b) hb, fieldWidth_single, Nat.pow_one,
    div_mod_two_eq_testBit]

/-- Instance of C11: bit 31 of `0x80000000`. -/
theorem single_bit_field_witness :
    ∃ bit, getBit 32 31 0x80000000 = some (bit, 0x80000000) ∧
      getBitRangeVal 32 31 31 0x80000000 = some (if bit then 1 else 0, 0x80000000) :=
  single_bit_field 32 31 0x80000000 (by decide) (by decide) (by decide)

/-- C12 (`setBitRange`): on an accepted range `setBitRange<FirstBit, LastBit>()`
leaves the same register as `setBitRangeVal<FirstBit, LastBit>(0xFFFFFFFF)`,
namely `r | M`: every bit of the range is 1 and every bit outside it is
unchanged. -/
theorem setBitRange_spec (RegSize : Nat) (FirstBit LastBit : Int) (r : Nat)
    (hW : RegSize ≤ 32) (hF : 0 ≤ FirstBit) (hFL : FirstBit ≤ LastBit)
    (hL : LastBit < (RegSize : Int)) (hr : r < 2 ^ 32) :
    ∃ r', setBitRange RegSize FirstBit LastBit r = some r' ∧
      setBitRangeVal RegSize FirstBit LastBit 0xFFFFFFFF r = some r' ∧
      r' = r ||| rangeMask FirstBit.toNat LastBit.toNat ∧
      (∀ i, FirstBit.toNat ≤ i ∧ i ≤ LastBit.toNat → r'.testBit i = true) ∧
      (∀ i, ¬ (FirstBit.toNat ≤ i ∧ i ≤ LastBit.toNat) → r'.testBit i = r.testBit i) := by
  obtain ⟨f, rfl⟩ := Int.eq_ofNat_of_zero_le hF
  obtain ⟨l, rfl⟩ := Int.eq_ofNat_of_zero_le (le_trans hF hFL)
  have hfl : f ≤ l := by omega
  have hl : l < RegSize := by omega
  have hl32 : l < 32 := by omega
  have e : (0xFFFFFFFF : Nat) = u32max := by decide
  simp only [Int.toNat_ofNat]
  refine ⟨_, setBitRange_eq RegSize f l r hW hfl hl, ?_, rfl, ?_, ?_⟩
  · rw [e, setBitRangeVal_eq RegSize f l u32max r hW hfl hl,
      setBitRangeVal_max_eq_or f l r hfl hl32 hr]
  · intro i h
    rw [testBit_setBitRange f l r i hfl, if_pos h]
  · intro i h
    rw [testBit_setBitRange f l r i hfl, if_neg h]

/-- Instance of C12: the range `8 .. 15` of a register holding `0x12345678`. -/
theorem setBitRange_spec_witness :
    ∃ r', setBitRange 32 8 15 0x12345678 = some r' ∧
      setBitRangeVal 32 8 15 0xFFFFFFFF 0x12345678 = some r' ∧
      r' = 0x12345678 ||| rangeMask (8 : Int).toNat (15 : Int).toNat ∧
      (∀ i, (8 : Int).toNat ≤ i ∧ i ≤ (15 : Int).toNat → r'.testBit i = true) ∧
      (∀ i, ¬ ((8 : Int).toNat ≤ i ∧ i ≤ (15 : Int).toNat) →
        r'.testBit i = (0x12345678 : Nat).testBit i) :=
  setBitRange_spec 32 8 15 0x12345678 (by decide) (by decide) (by decide) (by decide)
    (by decide)

/-- C13 (`resetBitRange`): on an accepted range
`resetBitRange<FirstBit, LastBit>()` leaves `r & ~M`: every bit of the range is
0, every bit outside it is unchanged, and a following
`getBitRangeVal<FirstBit, LastBit>()` returns 0. -/
theorem resetBitRange_spec (RegSize : Nat) (FirstBit LastBit : Int) (r : Nat)
    (hW : RegSize ≤ 32) (hF : 0 ≤ FirstBit) (hFL : FirstBit ≤ LastBit)
    (hL : LastBit < (RegSize : Int)) (hr : r < 2 ^ 32) :
    ∃ r', resetBitRange RegSize FirstBit LastBit r = some r' ∧
      r' = r &&& not32 (rangeMask FirstBit.toNat LastBit.toNat) ∧
      (∀ i, FirstBit.toNat ≤ i ∧ i ≤ LastBit.toNat → r'.testBit i = false) ∧
      (∀ i, ¬ (FirstBit.toNat ≤ i ∧ i ≤ LastBit.toNat) → r'.testBit i = r.testBit i) ∧
      getBitRangeVal RegSize FirstBit LastBit r' = some (0, r') := by
  obtain ⟨f, rfl⟩ := Int.eq_ofNat_of_zero_le hF
  obtain ⟨l, rfl⟩ := Int.eq_ofNat_of_zero_le (le_trans hF hFL)
  have hfl : f ≤ l := by omega
  have hl : l < RegSize := by omega
  have hl32 : l < 32 := by omega
  simp only [Int.toNat_ofNat]
  refine ⟨_, resetBitRange_eq RegSize f l r hW hfl hl, rfl, ?_, ?_, ?_⟩
  · intro i h
    rw [testBit_resetBitRange f l r i hfl hl32 hr, if_pos h]
  · intro i h
    rw [testBit_resetBitRange f l r i hfl hl32 hr, if_neg h]
  · rw [getBitRangeVal_eq RegSize f l _ hW hfl hl]
    congr 2
    apply Nat.eq_of_testBit_eq
    intro i
    rw [testBit_getBitRangeVal, testBit_resetBitRange f l r (f + i) hfl hl32 hr,
      Nat.zero_testBit]
    by_cases h : i < fieldWidth f l
    · have h2 : f ≤ f + i ∧ f + i ≤ l := by unfold fieldWidth at h; omega
      simp [h2]
    · simp [h]

/-- Instance of C13: the range `8 .. 15` of a register of ones. -/
theorem resetBitRange_spec_witness :
    ∃ r', resetBitRange 32 8 15 0xFFFFFFFF = some r' ∧
      r' = 0xFFFFFFFF &&& not32 (rangeMask (8 : Int).toNat (15 : Int).toNat) ∧
      (∀ i, (8 : Int).toNat ≤ i ∧ i ≤ (15 : Int).toNat → r'.testBit i = false) ∧
      (∀ i, ¬ ((8 : Int).toNat ≤ i ∧ i ≤ (15 : Int).toNat) →
        r'.testBit i = (0xFFFFFFFF : Nat).testBit i) ∧
      getBitRangeVal 32 8 15 r' = some (0, r') :=
  resetBitRange_spec 32 8 15 0xFFFFFFFF (by decide) (by decide) (by decide) (by decide)
    (by decide)

/-- C14 (set/reset idempotence): for an accepted bit index, `setBit<Bit>()`
applied to its own result leaves that result, and for an accepted range
`resetBitRange<FirstBit, LastBit>()` applied to its own result leaves that
result. -/
theorem set_reset_idempotent (RegSize : Nat) (Bit FirstBit LastBit : Int) (r : Nat)
    (hW : RegSize ≤ 32) (hB0 : 0 ≤ Bit) (hB : Bit < (RegSize : Int))
    (hF : 0 ≤ FirstBit) (hFL : FirstBit ≤ LastBit) (hL : LastBit < (RegSize : Int)) :
    (∃ r1, setBit RegSize Bit r = some r1 ∧ setBit RegSize Bit r1 = some r1) ∧
    (∃ r2, resetBitRange RegSize FirstBit LastBit r = some r2 ∧
      resetBitRange RegSize FirstBit LastBit r2 = some r2) := by
  obtain ⟨b, rfl⟩ := Int.eq_ofNat_of_zero_le hB0
  obtain ⟨f, rfl⟩ := Int.eq_ofNat_of_zero_le hF
  obtain ⟨l, rfl⟩ := Int.eq_ofNat_of_zero_le (le_trans hF hFL)
  have hb : b < RegSize := by omega
  have hfl : f ≤ l := by omega
  have hl : l < RegSize := by omega
  refine ⟨⟨_, setBit_eq RegSize b r hW hb, ?_⟩, ⟨_, resetBitRange_eq RegSize f l r hW hfl hl, ?_⟩⟩
  · rw [setBit_eq RegSize b _ hW hb, or_idem]
  · rw [resetBitRange_eq RegSize f l _ hW hfl hl, and_idem]

/-- Instance of C14: bit 3 and the range `4 .. 7` of a register holding `0xF0`. -/
theorem set_reset_idempotent_witness :
    (∃ r1, setBit 32 3 0xF0 = some r1 ∧ setBit 32 3 r1 = some r1) ∧
    (∃ r2, resetBitRange 32 4 7 0xF0 = some r2 ∧ resetBitRange 32 4 7 r2 = some r2) :=
  set_reset_idempotent 32 3 4 7 0xF0 (by decide) (by decide) (by decide) (by decide)
    (by decide) (by decide)

/-- C15 (end-to-end scenario): on a width-32 accessor holding `0x00000000`,
`setBitRangeVal<4,7>(0xFA)` leaves `0x000000A0` (the field receives
`0xFA & 0xF = 0xA`), `getBitRangeVal<4,7>()` then returns `0xA`, and
`resetBit<5>()` then leaves `0x00000080`. -/
theorem end_to_end_scenario :
    setBitRangeVal 32 4 7 0xFA 0x00000000 = some 0x000000A0 ∧
    convValToBitRangeVal 32 4 7 0xFA = some (0xA <<< 4) ∧
    (0xFA &&& 0xF : Nat) = 0xA ∧
    getBitRangeVal 32 4 7 0x000000A0 = some (0xA, 0x000000A0) ∧
    resetBit 32 5 0x000000A0 = some 0x00000080 ∧
    ((setBitRangeVal 32 4 7 0xFA 0x00000000).bind fun r1 =>
      (getBitRangeVal 32 4 7 r1).bind fun p =>
        (resetBit 32 5 p.2).map fun r3 => (r1, p.1, r3)) =
      some (0x000000A0, 0xA, 0x00000080) := by
  decide

/-- C16 (static validation is exact): a width is rejected exactly when it
exceeds 32; `checkBitNumber<Bit>` accepts exactly when `0 ≤ Bit < RegSize`;
`checkBitRange<FirstBit, LastBit>` accepts exactly when
`0 ≤ FirstBit ≤ LastBit < RegSize` (so a reversed range, a negative index and an
index at or above the width are rejected, and a one-bit range is accepted when
its bit is); each single-bit operation, each bit-range operation and each
converter is defined exactly when the width and its check accept. -/
theorem static_validation_exact (RegSize : Nat) (Bit FirstBit LastBit : Int) (val reg : Nat) :
    (checkRegSize RegSize = false ↔ 32 < RegSize) ∧
    (checkBitNumber RegSize Bit = true ↔ (0 ≤ Bit ∧ Bit < (RegSize : Int))) ∧
    (checkBitRange RegSize FirstBit LastBit = true ↔
      (0 ≤ FirstBit ∧ FirstBit ≤ LastBit ∧ LastBit < (RegSize : Int))) ∧
    (LastBit < FirstBit → checkBitRange RegSize FirstBit LastBit = false) ∧
    (FirstBit < 0 → checkBitRange RegSize FirstBit LastBit = false) ∧
    ((RegSize : Int) ≤ LastBit → checkBitRange RegSize FirstBit LastBit = false) ∧
    checkBitRange RegSize Bit Bit = checkBitNumber RegSize Bit ∧
    (getBit RegSize Bit reg).isSome = (checkRegSize RegSize && checkBitNumber RegSize Bit) ∧
    (setBit RegSize Bit reg).isSome = (checkRegSize RegSize && checkBitNumber RegSize Bit) ∧
    (resetBit RegSize Bit reg).isSome = (checkRegSize RegSize && checkBitNumber RegSize Bit) ∧
    (getBitRangeVal RegSize FirstBit LastBit reg).isSome =
      (checkRegSize RegSize && checkBitRange RegSize FirstBit LastBit) ∧
    (setBitRangeVal RegSize FirstBit LastBit val reg).isSome =
      (checkRegSize RegSize && checkBitRange RegSize FirstBit LastBit) ∧
    (setBitRange RegSize FirstBit LastBit reg).isSome =
      (checkRegSize RegSize && checkBitRange RegSize FirstBit LastBit) ∧
    (resetBitRange RegSize FirstBit LastBit reg).isSome =
      (checkRegSize RegSize && checkBitRange RegSize FirstBit LastBit) ∧
    (convValToBitRangeVal RegSize FirstBit LastBit val).isSome =
      (checkRegSize RegSize && checkBitRange RegSize FirstBit LastBit) ∧
    (convBitRangeValToVal RegSize FirstBit LastBit val).isSome =
      (checkRegSize RegSize && checkBitRange RegSize FirstBit LastBit) := by
  have hN : checkBitNumber RegSize Bit = true ↔ (0 ≤ Bit ∧ Bit < (RegSize : Int)) := by
    simp [checkBitNumber]
  have hR : checkBitRange RegSize FirstBit LastBit = true ↔
      (0 ≤ FirstBit ∧ FirstBit ≤ LastBit ∧ LastBit < (RegSize : Int)) := by
    simp only [checkBitRange, checkBitNumber, Bool.and_eq_true, decide_eq_true_eq]
    omega
  have hRf : ∀ q : Prop, (q → ¬ (0 ≤ FirstBit ∧ FirstBit ≤ LastBit ∧ LastBit < (RegSize : Int))) →
      q → checkBitRange RegSize FirstBit LastBit = false := by
    intro q hq h
    cases hc : checkBitRange RegSize FirstBit LastBit
    · rfl
    · exact absurd (hR.mp hc) (hq h)
  refine ⟨by simp [checkRegSize], hN, hR, hRf _ (by omega), hRf _ (by omega),
    hRf _ (by omega), ?_, ?_, ?_, ?_, ?_, ?_, ?_, ?_, ?_, ?_⟩
  · simp [checkBitRange]
  · unfold getBit
    cases checkRegSize RegSize && checkBitNumber RegSize Bit <;> simp
  · unfold setBit
    cases checkRegSize RegSize && checkBitNumber RegSize Bit <;> simp
  · unfold resetBit
    cases checkRegSize RegSize && checkBitNumber RegSize Bit <;> simp
  · unfold getBitRangeVal convBitRangeValToVal
    cases checkRegSize RegSize && checkBitRange RegSize FirstBit LastBit <;> simp
  · unfold setBitRangeVal convValToBitRangeVal
    cases checkRegSize RegSize && checkBitRange RegSize FirstBit LastBit <;> simp
  · unfold setBitRange convValToBitRangeVal
    cases checkRegSize RegSize && checkBitRange RegSize FirstBit LastBit <;> simp
  · unfold resetBitRange convValToBitRangeVal
    cases checkRegSize RegSize && checkBitRange RegSize FirstBit LastBit <;> simp
  · unfold convValToBitRangeVal
    cases checkRegSize RegSize && checkBitRange RegSize FirstBit LastBit <;> simp
  · unfold convBitRangeValToVal
    cases checkRegSize RegSize && checkBitRange RegSize FirstBit LastBit <;> simp

/-- C17 (whole-register assign and read): for a width of at most 32 (also below
32) `operator=(value)` leaves exactly `value` in the register, every bit
included, whatever the previous content, and a following `get()` returns
`value` and leaves the register as it is. -/
theorem assign_then_get (RegSize val r : Nat) (hW : RegSize ≤ 32) :
    ∃ r', assign RegSize val r = some r' ∧ r' = val ∧
      (∀ i, r'.testBit i = val.testBit i) ∧
      get RegSize r' = some (val, r') := by
  have hc : checkRegSize RegSize = true := by simp [checkRegSize, hW]
  refine ⟨val, ?_, rfl, fun _ => rfl, ?_⟩
  · unfold assign
    rw [hc]
    rfl
  · unfold get
    rw [hc]
    rfl

/-- Instance of C17: an 8-bit accessor assigned the all-ones word. -/
theorem assign_then_get_witness :
    ∃ r', assign 8 0xFFFFFFFF 0x00000012 = some r' ∧ r' = 0xFFFFFFFF ∧
      (∀ i, r'.testBit i = (0xFFFFFFFF : Nat).testBit i) ∧
      get 8 r' = some (0xFFFFFFFF, r') :=
  assign_then_get 8 0xFFFFFFFF 0x00000012 (by decide)

/-- C18 (writes to disjoint fields commute): for two accepted ranges with
`L1 < F2`, `setBitRangeVal<F1,L1>(v1)` followed by `setBitRangeVal<F2,L2>(v2)`
leaves the same register as the two calls in the opposite order, and afterwards
`getBitRangeVal<F1,L1>()` returns `v1 mod 2^(L1-F1+1)` and
`getBitRangeVal<F2,L2>()` returns `v2 mod 2^(L2-F2+1)`. -/
theorem disjoint_writes_commute (RegSize : Nat) (F1 L1 F2 L2 : Int) (r v1 v2 : Nat)
    (hW : RegSize ≤ 32) (hF1 : 0 ≤ F1) (h1 : F1 ≤ L1) (h12 : L1 < F2) (h2 : F2 ≤ L2)
    (hL2 : L2 < (RegSize : Int)) (hr : r < 2 ^ 32) :
    ∃ r', (setBitRangeVal RegSize F1 L1 v1 r).bind (setBitRangeVal RegSize F2 L2 v2) =
        some r' ∧
      (setBitRangeVal RegSize F2 L2 v2 r).bind (setBitRangeVal RegSize F1 L1 v1) =
        some r' ∧
      getBitRangeVal RegSize F1 L1 r' = some (v1 % 2 ^ fieldWidth F1.toNat L1.toNat, r') ∧
      getBitRangeVal RegSize F2 L2 r' = some (v2 % 2 ^ fieldWidth F2.toNat L2.toNat, r') := by
  obtain ⟨f1, rfl⟩ := Int.eq_ofNat_of_zero_le hF1
  obtain ⟨l1, rfl⟩ := Int.eq_ofNat_of_zero_le (le_trans hF1 h1)
  obtain ⟨f2, rfl⟩ := Int.eq_ofNat_of_zero_le (by omega : (0 : Int) ≤ F2)
  obtain ⟨l2, rfl⟩ := Int.eq_ofNat_of_zero_le (by omega : (0 : Int) ≤ L2)
  have a1 : f1 ≤ l1 := by omega
  have a12 : l1 < f2 := by omega
  have a2 : f2 ≤ l2 := by omega
  have b2 : l2 < RegSize := by omega
  have b1 : l1 < RegSize := by omega
  have c1 : l1 < 32 := by omega
  have c2 : l2 < 32 := by omega
  simp only [Int.toNat_ofNat]
  refine ⟨(((r &&& not32 (rangeMask f1 l1)) ||| (v1 % 2 ^ fieldWidth f1 l1 * 2 ^ f1)) &&&
    not32 (rangeMask f2 l2)) ||| (v2 % 2 ^ fieldWidth f2 l2 * 2 ^ f2), ?_, ?_, ?_, ?_⟩
  · rw [setBitRangeVal_eq RegSize f1 l1 v1 r hW a1 b1, Option.some_bind,
      setBitRangeVal_eq RegSize f2 l2 v2 _ hW a2 b2]
  · rw [setBitRangeVal_eq RegSize f2 l2 v2 r hW a2 b2, Option.some_bind,
      setBitRangeVal_eq RegSize f1 l1 v1 _ hW a1 b1]
    congr 1
    apply Nat.eq_of_testBit_eq
    intro i
    rw [testBit_two_writes f2 l2 f1 l1 v2 v1 r i a2 a1 c2 c1 hr,
      testBit_two_writes f1 l1 f2 l2 v1 v2 r i a1 a2 c1 c2 hr]
    by_cases p1 : f1 ≤ i ∧ i ≤ l1
    · have p2 : ¬ (f2 ≤ i ∧ i ≤ l2) := by omega
      rw [if_pos p1, if_neg p2, if_pos p1]
    · rw [if_neg p1]
      by_cases p2 : f2 ≤ i ∧ i ≤ l2
      · rw [if_pos p2, if_pos p2]
      · rw [if_neg p2, if_neg p2, if_neg p1]
  · rw [getBitRangeVal_eq RegSize f1 l1 _ hW a1 b1]
    congr 2
    apply Nat.eq_of_testBit_eq
    intro i
    rw [testBit_getBitRangeVal, testBit_two_writes f1 l1 f2 l2 v1 v2 r (f1 + i) a1 a2 c1 c2 hr,
      Nat.testBit_mod_two_pow]
    by_cases h : i < fieldWidth f1 l1
    · have p1 : f1 ≤ f1 + i ∧ f1 + i ≤ l1 := by unfold fieldWidth at h; omega
      have p2 : ¬ (f2 ≤ f1 + i ∧ f1 + i ≤ l2) := by omega
      simp [h, p1, p2]
    · simp [h]
  · rw [getBitRangeVal_eq RegSize f2 l2 _ hW a2 b2]
    congr 2
    apply Nat.eq_of_testBit_eq
    intro i
    rw [testBit_getBitRangeVal, testBit_two_writes f1 l1 f2 l2 v1 v2 r (f2 + i) a1 a2 c1 c2 hr,
      Nat.testBit_mod_two_pow]
    by_cases h : i < fieldWidth f2 l2
    · have p2 : f2 ≤ f2 + i ∧ f2 + i ≤ l2 := by unfold fieldWidth at h; omega
      simp [h, p2]
    · simp [h]

/-- Instance of C18: the adjacent ranges `0 .. 3` and `4 .. 7` of a 16-bit
register. -/
theorem disjoint_writes_commute_witness :
    ∃ r', (setBitRangeVal 16 0 3 0x1C 0xABCD).bind (setBitRangeVal 16 4 7 0x35) = some r' ∧
      (setBitRangeVal 16 4 7 0x35 0xABCD).bind (setBitRangeVal 16 0 3 0x1C) = some r' ∧
      getBitRangeVal 16 0 3 r' =
        some (0x1C % 2 ^ fieldWidth (0 : Int).toNat (3 : Int).toNat, r') ∧
      getBitRangeVal 16 4 7 r' =
        some (0x35 % 2 ^ fieldWidth (4 : Int).toNat (7 : Int).toNat, r') :=
  disjoint_writes_commute 16 0 3 4 7 0xABCD 0x1C 0x35 (by decide) (by decide) (by decide)
    (by decide) (by decide) (by decide) (by decide)

/-- C19 (single-bit operations are the one-bit range operations): for an
accepted bit index `B` (bit 31 included), `setBit<B>()` leaves the same register
as `setBitRange<B, B>()` and `resetBit<B>()` leaves the same register as
`resetBitRange<B, B>()`. -/
theorem single_bit_ops_eq_range_ops (RegSize : Nat) (B : Int) (r : Nat) (hW : RegSize ≤ 32)
    (hB0 : 0 ≤ B) (hB : B < (RegSize : Int)) :
    (∃ r1, setBit RegSize B r = some r1 ∧ setBitRange RegSize B B r = some r1) ∧
    (∃ r2, resetBit RegSize B r = some r2 ∧ resetBitRange RegSize B B r = some r2) := by
  obtain ⟨b, rfl⟩ := Int.eq_ofNat_of_zero_le hB0
  have hb : b < RegSize := by omega
  refine ⟨⟨_, setBit_eq RegSize b r hW hb, ?_⟩, ⟨_, resetBit_eq RegSize b r hW hb, ?_⟩⟩
  · rw [setBitRange_eq RegSize b b r hW (Nat.le_refl b) hb, rangeMask_single]
  · rw [resetBitRange_eq RegSize b b r hW (Nat.le_refl b) hb, rangeMask_single]

/-- Instance of C19: bit 31 of a register holding `0x7FFFFFFE`. -/
theorem single_bit_ops_eq_range_ops_witness :
    (∃ r1, setBit 32 31 0x7FFFFFFE = some r1 ∧ setBitRange 32 31 31 0x7FFFFFFE = some r1) ∧
    (∃ r2, resetBit 32 31 0x7FFFFFFE = some r2 ∧
      resetBitRange 32 31 31 0x7FFFFFFE = some r2) :=
  single_bit_ops_eq_range_ops 32 31 0x7FFFFFFE (by decide) (by decide) (by decide)

end rw
